import Mathlib

/-!
Shallow embedding, in Lean 4, of the resume skill-extraction pipeline of
`skills_extraction_Llama_ds.ipynb`: the text normalizer (`Text_Clean` column
pipeline), the LLM-output cleaner (`clean_extracted_skills`), the ESCO
ontology mapper (`pref_map`, `alt_map`, `map_to_esco`, `mapped_skills_str`),
the remote skill extractors (`extract_skills_llama3_sambanova` and its
knowledge-graph variant), and the evaluator (`calculate_metrics`).

Strings are modelled over ASCII character classes (Python's `\d`, `\w`, `\s`
restricted to ASCII); Python `str` values are `String`, possibly-missing
cell values (`NaN` / non-string) are `Option String`, Python `set`s of
strings are deduplicated `List String` compared as `Finset String`, and
Python floats in the evaluator are `ℚ` (all arithmetic involved is exact).
The fuzzywuzzy scorer `fuzz.token_set_ratio` is third-party library code and
is abstracted as a parameter `σ : String → String → Nat` returning a score
on the 0–100 scale; `process.extractOne` is modelled by its contract:
return a choice attaining the maximum score (first maximum wins), or `none`
on an empty choice list.
-/

set_option autoImplicit false

namespace SkillsPipeline

/-- Python `\s` (ASCII): the whitespace characters recognised by `str.strip`
and the regex class `\s`. -/
def isPySpace (c : Char) : Bool :=
  c == ' ' || c == '\t' || c == '\n' || c == '\r' || c == Char.ofNat 11 || c == Char.ofNat 12

/-- Python `\d` (ASCII): decimal digits. -/
def isPyDigit (c : Char) : Bool :=
  '0' ≤ c && c ≤ '9'

/-- Python `\w` (ASCII): letters, digits and underscore. -/
def isWordChar (c : Char) : Bool :=
  c.isAlphanum || c == '_'

/-- Python `str.lower` (ASCII model). -/
def lowerStr (s : String) : String :=
  ⟨s.data.map Char.toLower⟩

/-- Python `str.strip` on a character list: drop leading and trailing
whitespace. -/
def pyStripList (l : List Char) : List Char :=
  ((l.dropWhile isPySpace).reverse.dropWhile isPySpace).reverse

/-- Python `str.strip`. -/
def pyStrip (s : String) : String :=
  ⟨pyStripList s.data⟩

/-- Python `str.isdigit` (ASCII model): non-empty and all characters are
decimal digits. -/
def isAllDigits (l : List Char) : Bool :=
  !l.isEmpty && l.all isPyDigit

/-! ### Text Normalizer

The notebook cell

```
df["Text_Clean"] = df["Text"].str.lower()
df["Text_Clean"] = df["Text_Clean"].str.replace(r'\d+', ' ', regex=True)
df["Text_Clean"] = df["Text_Clean"].str.replace(r'[^\w\s]', ' ', regex=True)
df["Text_Clean"] = df["Text_Clean"].str.replace(r'\s+', ' ', regex=True)
df["Text_Clean"] = df["Text_Clean"].str.strip()
```

applied to one cell value.  `replDigitsGo` replaces each maximal run of
digits by one space (regex `\d+` → `' '`); the boolean flag records whether
the scanner is inside a digit run.  `collapseWsGo` likewise replaces each
maximal whitespace run by one space (regex `\s+` → `' '`). -/

/-- Replace each maximal digit run by a single space; the flag is true while
inside a run already replaced. -/
def replDigitsGo : Bool → List Char → List Char
  | _, [] => []
  | inRun, c :: cs =>
    if isPyDigit c then
      if inRun then replDigitsGo true cs else ' ' :: replDigitsGo true cs
    else
      c :: replDigitsGo false cs

/-- Regex substitution `\d+` → `' '`. -/
def replDigits (l : List Char) : List Char :=
  replDigitsGo false l

/-- Regex substitution `[^\w\s]` → `' '` (single-character class, applied
per character). -/
def replNonWord (l : List Char) : List Char :=
  l.map fun c => if isWordChar c || isPySpace c then c else ' '

/-- Replace each maximal whitespace run by a single space; the flag is true
while inside a run already replaced. -/
def collapseWsGo : Bool → List Char → List Char
  | _, [] => []
  | inRun, c :: cs =>
    if isPySpace c then
      if inRun then collapseWsGo true cs else ' ' :: collapseWsGo true cs
    else
      c :: collapseWsGo false cs

/-- Regex substitution `\s+` → `' '`. -/
def collapseWs (l : List Char) : List Char :=
  collapseWsGo false l

/-- The Text Normalizer on one string cell: lower-case, `\d+` → space,
`[^\w\s]` → space, `\s+` → space, strip. -/
def Text_Clean (s : String) : String :=
  ⟨pyStripList (collapseWs (replNonWord (replDigits (s.data.map Char.toLower))))⟩

/-- The Text Normalizer on one dataframe cell: pandas `.str` operations map
a non-string cell (`none`, modelling `NaN`) to `NaN` again, without raising. -/
def Text_CleanCell : Option String → Option String :=
  Option.map Text_Clean

/-! ### LLM-output cleaner `clean_extracted_skills`

```
def clean_extracted_skills(text):
    if not isinstance(text, str) or not text.strip():
        return set()
    text = text.lower().replace(';', ',').replace(' and ', ', ')
    raw_skill_candidates = re.split(r',\s*|\s*,\s*', text)
    return {
        re.sub(r'[^a-z0-9\s\.\+#-]+', '', s).strip()
        for s in raw_skill_candidates
        if s.strip() and len(s.strip()) > 1 and not s.strip().isdigit()
    }
```

`re.split(r',\s*|\s*,\s*', ...)` splits at each comma together with the
whitespace around it; we split at each comma and leave the surrounding
whitespace attached to the adjacent fragments.  The produced set is
identical, because every use of a fragment below first strips it (`s.strip()`
in the filter) or strips the result (`....strip()` after the substitution,
which keeps whitespace characters), so surrounding whitespace never affects
either the filter or the contributed element.  A Python set of strings is
modelled as a deduplicated list. -/

/-- Python `str.replace` for a single-character pattern. -/
def replaceCharAll (a b : Char) (l : List Char) : List Char :=
  l.map fun c => if c == a then b else c

/-- The pattern `' and '` replaced by `clean_extracted_skills`. -/
def andPat : List Char := [' ', 'a', 'n', 'd', ' ']

/-- Python `str.replace(' and ', ', ')`: replace every non-overlapping
occurrence, scanning left to right. -/
def replaceAnd : List Char → List Char
  | ' ' :: 'a' :: 'n' :: 'd' :: ' ' :: rest => ',' :: ' ' :: replaceAnd rest
  | c :: cs => c :: replaceAnd cs
  | [] => []

/-- Split a character list at every comma (the comma is consumed). -/
def splitCommaGo (acc : List Char) : List Char → List (List Char)
  | [] => [acc.reverse]
  | c :: cs =>
    if c == ',' then acc.reverse :: splitCommaGo [] cs
    else splitCommaGo (c :: acc) cs

/-- Python `re.split` on comma boundaries (see the section comment for the
whitespace convention). -/
def splitComma (l : List Char) : List (List Char) :=
  splitCommaGo [] l

/-- Characters kept by the substitution `re.sub(r'[^a-z0-9\s\.\+#-]+', '', s)`:
lower-case letters, digits, whitespace, period, plus, hash, hyphen. -/
def isKeptChar (c : Char) : Bool :=
  ('a' ≤ c && c ≤ 'z') || ('0' ≤ c && c ≤ '9') || isPySpace c ||
    c == '.' || c == '+' || c == '#' || c == '-'

/-- Regex substitution `[^a-z0-9\s\.\+#-]+` → `''`: delete every character
outside the kept class. -/
def subAllowed (l : List Char) : List Char :=
  l.filter isKeptChar

/-- The filter guarding the set comprehension of `clean_extracted_skills`:
`s.strip()` non-empty, of length `> 1`, and not `isdigit`. -/
def candidateKeep (s : List Char) : Bool :=
  !(pyStripList s).isEmpty && decide (1 < (pyStripList s).length) &&
    !isAllDigits (pyStripList s)

/-- Cleans raw LLM text output into a set of normalized skill phrases
(`clean_extracted_skills`).  `none` models a non-string (`NaN`) input. -/
def clean_extracted_skills : Option String → List String
  | none => []
  | some s =>
    if pyStrip s = "" then []
    else
      let text := replaceAnd (replaceCharAll ';' ',' ((lowerStr s).data))
      let raw_skill_candidates := splitComma text
      (((raw_skill_candidates.filter candidateKeep).map
          fun c => String.mk (pyStripList (subAllowed c))).dedup)

example : clean_extracted_skills (some "Python, SQL and C++") = ["python", "sql", "c++"] := by decide
example : clean_extracted_skills (some "!!") = [""] := by decide
example : clean_extracted_skills none = [] := by decide
example : Text_Clean "Ab1  2c,d" = "ab c d" := by decide

/-! ### Ontology Mapper

The ontology is `esco_df = pd.read_csv("skills_en.csv")[['preferredLabel',
'altLabels']]`: a sequence of rows, each a canonical label together with an
optional `|`-separated alternate-label field (`NaN`, i.e. `none`, when the
row has no alternates).

```
esco_preferred_lower_list = esco_df['preferredLabel'].str.lower().tolist()
pref_map = {label.lower(): label for label in esco_df['preferredLabel'].unique()}
alt_map = {
    alt.strip(): row['preferredLabel']
    for _, row in esco_df.iterrows()
    if isinstance(row['altLabels'], str)
    for alt in row['altLabels'].lower().replace('"', '').split('|')
    if alt.strip()
}
```

Python dicts built by comprehension let a later binding of the same key
overwrite an earlier one; a dict is therefore modelled as the association
list of bindings in comprehension order, looked up by `lookupLast` (the
last binding for the key wins).  `pd.unique` keeps the first occurrence of
each duplicated value. -/

/-- One row of the loaded ESCO ontology table. -/
structure EscoRow where
  preferredLabel : String
  altLabels : Option String
deriving DecidableEq

/-- Python dict lookup for a dict built from an association list in binding
order: the last binding of the key wins. -/
def lookupLast (k : String) : List (String × String) → Option String
  | [] => none
  | p :: d =>
    match lookupLast k d with
    | some v => some v
    | none => if p.1 = k then some p.2 else none

/-- Python `pd.unique`: deduplicate keeping the first occurrence, preserving
order. -/
def uniqueFirst (seen : List String) : List String → List String
  | [] => []
  | x :: xs => if x ∈ seen then uniqueFirst seen xs else x :: uniqueFirst (x :: seen) xs

/-- The `pref_map` dict: lower-cased unique preferred labels bound to their
original spelling. -/
def pref_map (rows : List EscoRow) : List (String × String) :=
  (uniqueFirst [] (rows.map (·.preferredLabel))).map fun label => (lowerStr label, label)

/-- Split a character list at every `|` (the bar is consumed), as Python
`str.split('|')`. -/
def splitBarGo (acc : List Char) : List Char → List (List Char)
  | [] => [acc.reverse]
  | c :: cs =>
    if c == '|' then acc.reverse :: splitBarGo [] cs
    else splitBarGo (c :: acc) cs

/-- The alternate-label keys contributed by one ontology row:
`row['altLabels'].lower().replace('"', '').split('|')`, each stripped, empty
entries dropped. -/
def altKeys (r : EscoRow) : List String :=
  match r.altLabels with
  | none => []
  | some s =>
    (((splitBarGo [] (((lowerStr s).data).filter (fun c => !(c == '"')))).map
        fun a => String.mk (pyStripList a)).filter fun a => a ≠ "")

/-- The `alt_map` dict: stripped alternate labels bound to the preferred
label of their row, in row-then-alternate order. -/
def alt_map (rows : List EscoRow) : List (String × String) :=
  (rows.map fun r => (altKeys r).map fun a => (a, r.preferredLabel)).flatten

/-- The `esco_preferred_lower_list` list: all lower-cased preferred labels,
in row order, duplicates kept. -/
def escoLowerList (rows : List EscoRow) : List String :=
  rows.map fun r => lowerStr r.preferredLabel

/-- Model of fuzzywuzzy `process.extractOne(query, choices, scorer)`: the
choice attaining the maximum score under the scorer (the first maximum
wins), together with its score; `none` exactly when the choice list is
empty. -/
def extractOne (σ : String → String → Nat) (query : String) (choices : List String) :
    Option (String × Nat) :=
  choices.foldl
    (fun acc c =>
      match acc with
      | none => some (c, σ query c)
      | some (b, s) => if s < σ query c then some (c, σ query c) else some (b, s))
    none

/-- Maps an extracted skill to an ESCO preferredLabel using exact/fuzzy
matching (`map_to_esco`).  The fuzzy scorer `σ` abstracts
`fuzz.token_set_ratio`. -/
def map_to_esco (σ : String → String → Nat) (rows : List EscoRow) (skill_name : String) :
    Option String :=
  let skill := pyStrip (lowerStr skill_name)
  if skill = "" then none
  else
    match lookupLast skill (pref_map rows) with
    | some v => some v
    | none =>
      match lookupLast skill (alt_map rows) with
      | some v => some v
      | none =>
        match extractOne σ skill (escoLowerList rows) with
        | some (best, score) =>
          if 60 ≤ score then
            match rows.find? (fun r => lowerStr r.preferredLabel == best) with
            | some r => some r.preferredLabel
            | none => none
          else none
        | none => none

/-- Lexicographic (code-point) order on character lists, as Python string
comparison. -/
def lexLe : List Char → List Char → Bool
  | [], _ => true
  | _ :: _, [] => false
  | a :: as, b :: bs => if a = b then lexLe as bs else decide (a < b)

/-- Python `<=` on strings. -/
def strLeB (a b : String) : Bool :=
  lexLe a.data b.data

/-- Insert into a `strLeB`-sorted list. -/
def insertStr (x : String) : List String → List String
  | [] => [x]
  | y :: ys => if strLeB x y then x :: y :: ys else y :: insertStr x ys

/-- Python `sorted` on a list of strings (insertion sort; any stable sort
by the same order agrees). -/
def sortStrs : List String → List String
  | [] => []
  | x :: xs => insertStr x (sortStrs xs)

/-- The labels contributed by a candidate list:
`filter(None, [map_to_esco(x, ...) for x in s])`. -/
def mappedLabels (σ : String → String → Nat) (rows : List EscoRow)
    (cands : List String) : List String :=
  cands.filterMap (map_to_esco σ rows)

/-- The full Mapper stage on one raw extraction cell: clean into candidate
phrases, resolve each phrase, drop the unresolved ones. -/
def mapperLabels (σ : String → String → Nat) (rows : List EscoRow)
    (raw : Option String) : List String :=
  mappedLabels σ rows (clean_extracted_skills raw)

/-- Python `", ".join`: concatenate with the separator `", "` between
consecutive elements. -/
def pyJoinCommaSpace : List String → String
  | [] => ""
  | [x] => x
  | x :: y :: xs => x ++ ", " ++ pyJoinCommaSpace (y :: xs)

/-- The `", ".join` shape on character lists, used to reason about the
joined string. -/
def joinCommaSp : List (List Char) → List Char
  | [] => []
  | [x] => x
  | x :: y :: xs => x ++ ',' :: ' ' :: joinCommaSp (y :: xs)

/-- Whether the pattern `' and '` occurs contiguously in a character
list. -/
def hasAndPat : List Char → Bool
  | [] => false
  | c :: cs => decide ((c :: cs).take 5 = andPat) || hasAndPat cs

/-- The `mapped_skills_str` column:
`", ".join(sorted(list(filter(None, [map_to_esco(x, ...) for x in s]))))`. -/
def mapped_skills_str (σ : String → String → Nat) (rows : List EscoRow)
    (raw : Option String) : String :=
  pyJoinCommaSpace (sortStrs (mapperLabels σ rows raw))

/-- The Mapper's output as a set of canonical labels. -/
def mapperSet (σ : String → String → Nat) (rows : List EscoRow)
    (raw : Option String) : Finset String :=
  (mapperLabels σ rows raw).toFinset

/-! ### Skill Extractor

```
def extract_skills_llama3_sambanova(resume_text):
    MAX_RESUME_CHARS_FOR_LLM = 4000
    if len(resume_text) > MAX_RESUME_CHARS_FOR_LLM:
        resume_text_for_llm = resume_text[:MAX_RESUME_CHARS_FOR_LLM] + "..."
    else:
        resume_text_for_llm = resume_text
    messages = [ ...system..., ...user... ]
    completion = client.chat.completions.create(model=LLAMA_MODEL_ID,
        messages=messages, temperature=0.2, max_tokens=200)
    raw_output = completion.choices[0].message.content
    return raw_output
```

The remote round-trip `client.chat.completions.create(...)` followed by
`completion.choices[0].message.content` is abstracted as one function from
the message list to `Except InferErr String`: `Except.error` models the
Python exception a failing call raises (timeout, rate limit, network), and
a raised exception propagates out of the extraction function, which has no
`try`/`except` and makes exactly one call.  The batch stage
`df[...].progress_apply(extract_skills_llama3_sambanova)` is `mapM` in the
`Except` monad: pandas `apply` aborts the whole batch at the first raised
exception. -/

/-- Transient remote-inference failures. -/
inductive InferErr where
  | timeout
  | rateLimit
  | network
deriving DecidableEq

/-- One role-tagged chat message. -/
structure ChatMsg where
  role : String
  content : String
deriving DecidableEq

/-- The zero-shot extraction function; `client` abstracts the remote call
plus `completion.choices[0].message.content`. -/
def extract_skills_llama3_sambanova (client : List ChatMsg → Except InferErr String)
    (resume_text : String) : Except InferErr String :=
  let resume_text_for_llm :=
    if resume_text.length > 4000 then (resume_text.take 4000) ++ "..." else resume_text
  let messages : List ChatMsg :=
    [⟨"system", "You are a professional resume parser. Extract all technical skills from the resume below. Only output a clean, comma-separated list. No extra words."⟩,
     ⟨"user", resume_text_for_llm ++ "\n\nSkills:"⟩]
  client messages

/-- The knowledge-graph-guided extraction function
(`extract_skills_llama3_sambanova_kg`). -/
def extract_skills_llama3_sambanova_kg (resume_text esco_context_skills_str few_shot_examples_str : String)
    (client : List ChatMsg → Except InferErr String) : Except InferErr String :=
  let resume_text_for_llm :=
    if resume_text.length > 4000 then (resume_text.take 4000) ++ "..." else resume_text
  let system_prompt_kg :=
    "You are a professional resume parser. Extract all technical skills from the resume below. Only output a clean, comma-separated list. No extra words or introductory phrases." ++
      "\n\n" ++ few_shot_examples_str ++ "\n\n" ++
      "For guidance and inspiration, consider skills that are closely related to or are present in the following list of relevant ESCO skills::" ++
      "[" ++ esco_context_skills_str ++ "]."
  let messages : List ChatMsg :=
    [⟨"system", system_prompt_kg⟩,
     ⟨"user", "Resume: \"" ++ resume_text_for_llm ++ "\"\n\nSkills:"⟩]
  client messages

/-- The batch stage `progress_apply` over the zero-shot extractor: records
are processed in order and the first raised exception aborts the whole
application, discarding all per-record results. -/
def batchExtract (client : List ChatMsg → Except InferErr String) :
    List String → Except InferErr (List String)
  | [] => Except.ok []
  | r :: rs =>
    match extract_skills_llama3_sambanova client r with
    | Except.error e => Except.error e
    | Except.ok out =>
      match batchExtract client rs with
      | Except.error e => Except.error e
      | Except.ok outs => Except.ok (out :: outs)

/-! ### Evaluator

```
def calculate_metrics(gt_set, pred_set):
    tp = len(pred_set & gt_set)
    fp = len(pred_set - gt_set)
    fn = len(gt_set - pred_set)
    precision = tp / (tp + fp) if (tp + fp) > 0 else 0
    recall = tp / (tp + fn) if (tp + fn) > 0 else 0
    f1 = 2 * (precision * recall) / (precision + recall) if (precision + recall) > 0 else 0
    return precision, recall, f1
```

The sets are Python sets of strings and the divisions are exact here, so
the metrics are computed in `ℚ`. -/

/-- Calculate precision, recall, and F1-score between skill sets
(`calculate_metrics gt_set pred_set`). -/
def calculate_metrics (gt_set pred_set : Finset String) : ℚ × ℚ × ℚ :=
  let tp : ℕ := (pred_set ∩ gt_set).card
  let fp : ℕ := (pred_set \ gt_set).card
  let fnn : ℕ := (gt_set \ pred_set).card
  let precisionV : ℚ := if 0 < tp + fp then (tp : ℚ) / ((tp : ℚ) + (fp : ℚ)) else 0
  let recallV : ℚ := if 0 < tp + fnn then (tp : ℚ) / ((tp : ℚ) + (fnn : ℚ)) else 0
  let f1 : ℚ :=
    if 0 < precisionV + recallV then 2 * (precisionV * recallV) / (precisionV + recallV) else 0
  (precisionV, recallV, f1)

/-! ### Stripping and whitespace lemmas -/

/-- `dropWhile` yields a suffix. -/
lemma dropWhile_isSuffix (p : Char → Bool) : ∀ l : List Char, l.dropWhile p <:+ l
  | [] => List.suffix_refl []
  | c :: cs => by
    rw [List.dropWhile_cons]
    by_cases h : p c
    · rw [if_pos h]
      exact (dropWhile_isSuffix p cs).trans (List.suffix_cons c cs)
    · rw [if_neg h]

/-- Members of the stripped list are members of the original list. -/
lemma mem_of_mem_pyStripList {x : Char} {l : List Char} (h : x ∈ pyStripList l) : x ∈ l := by
  unfold pyStripList at h
  rw [List.mem_reverse] at h
  have h1 := (dropWhile_isSuffix isPySpace ((l.dropWhile isPySpace).reverse)).sublist.subset h
  rw [List.mem_reverse] at h1
  exact (dropWhile_isSuffix isPySpace l).sublist.subset h1

/-- Every element surviving `dropWhile p` at the head falsifies `p`. -/
lemma head?_dropWhile_false (p : Char → Bool) :
    ∀ l : List Char, ∀ c ∈ (l.dropWhile p).head?, p c = false
  | [], c => by simp [List.dropWhile]
  | a :: l, c => by
    rw [List.dropWhile_cons]
    by_cases h : p a
    · rw [if_pos h]
      exact head?_dropWhile_false p l c
    · rw [if_neg h]
      intro hc
      simp only [List.head?_cons, Option.mem_def, Option.some.injEq] at hc
      subst hc
      simpa using h

/-- A list whose head falsifies `p` is untouched by `dropWhile p`. -/
lemma dropWhile_eq_self_of_head (p : Char → Bool) (l : List Char)
    (h : ∀ c ∈ l.head?, p c = false) : l.dropWhile p = l := by
  cases l with
  | nil => rfl
  | cons a l =>
    rw [List.dropWhile_cons, if_neg]
    simp only [List.head?_cons, Option.mem_def, Option.some.injEq, forall_eq'] at h
    simp [h]

/-- The head of a stripped list is not whitespace. -/
lemma pyStripList_head (l : List Char) :
    ∀ c ∈ (pyStripList l).head?, isPySpace c = false := by
  intro c hc
  unfold pyStripList at hc
  rw [List.head?_reverse] at hc
  -- the last element of the inner `dropWhile` is the last element of the
  -- reversed outer `dropWhile`, i.e. the head of the outer `dropWhile`
  obtain ⟨pre, hpre⟩ := dropWhile_isSuffix isPySpace ((l.dropWhile isPySpace).reverse)
  rcases heq : ((l.dropWhile isPySpace).reverse.dropWhile isPySpace) with _ | ⟨a, t⟩
  · rw [heq] at hc
    simp at hc
  · rw [heq] at hpre hc
    have h3 : ((a :: t) : List Char).getLast? = (l.dropWhile isPySpace).reverse.getLast? := by
      rw [← hpre]
      exact (List.getLast?_append_of_ne_nil pre (List.cons_ne_nil a t)).symm
    rw [h3, List.getLast?_reverse] at hc
    exact head?_dropWhile_false isPySpace l c hc

/-- The last element of a stripped list is not whitespace. -/
lemma pyStripList_getLast (l : List Char) :
    ∀ c ∈ (pyStripList l).getLast?, isPySpace c = false := by
  intro c hc
  unfold pyStripList at hc
  rw [List.getLast?_reverse] at hc
  exact head?_dropWhile_false isPySpace _ c hc

/-- Stripping a list already stripped at both ends changes nothing. -/
lemma pyStripList_eq_self (l : List Char)
    (h1 : ∀ c ∈ l.head?, isPySpace c = false)
    (h2 : ∀ c ∈ l.getLast?, isPySpace c = false) : pyStripList l = l := by
  unfold pyStripList
  rw [dropWhile_eq_self_of_head isPySpace l h1,
    dropWhile_eq_self_of_head isPySpace l.reverse (by
      intro c hc
      rw [List.head?_reverse] at hc
      exact h2 c hc),
    List.reverse_reverse]

/-- Python `strip` is idempotent. -/
lemma pyStripList_idem (l : List Char) : pyStripList (pyStripList l) = pyStripList l :=
  pyStripList_eq_self (pyStripList l) (pyStripList_head l) (pyStripList_getLast l)

/-- Relation holding between adjacent characters when they are not both
whitespace. -/
def NotBothWs (a b : Char) : Prop :=
  ¬(isPySpace a = true ∧ isPySpace b = true)

/-- `NotBothWs` is symmetric. -/
lemma notBothWs_symm {a b : Char} (h : NotBothWs a b) : NotBothWs b a := by
  intro ⟨h1, h2⟩
  exact h ⟨h2, h1⟩

/-- `Chain' NotBothWs` survives reversal. -/
lemma chain'_notBothWs_reverse {l : List Char} (h : List.Chain' NotBothWs l) :
    List.Chain' NotBothWs l.reverse :=
  List.chain'_reverse.mpr (h.imp fun _ _ hab => notBothWs_symm hab)

/-- `Chain' NotBothWs` survives Python `strip`. -/
lemma chain'_notBothWs_pyStripList {l : List Char} (h : List.Chain' NotBothWs l) :
    List.Chain' NotBothWs (pyStripList l) := by
  unfold pyStripList
  exact chain'_notBothWs_reverse
    ((chain'_notBothWs_reverse
        (h.suffix (dropWhile_isSuffix isPySpace l))).suffix
      (dropWhile_isSuffix isPySpace (l.dropWhile isPySpace).reverse))

/-- After a collapsed run (`inRun = true`) the output starts with a
non-whitespace character, if at all. -/
lemma collapseWsGo_head_true :
    ∀ l : List Char, ∀ c rest, collapseWsGo true l = c :: rest → isPySpace c = false
  | [], c, rest => by simp [collapseWsGo]
  | a :: l, c, rest => by
    rw [collapseWsGo]
    by_cases h : isPySpace a
    · rw [if_pos h]
      exact collapseWsGo_head_true l c rest
    · rw [if_neg h]
      intro hc
      rw [List.cons.injEq] at hc
      rw [hc.1] at h
      simpa using h

/-- The whitespace collapser leaves no two adjacent whitespace characters. -/
lemma collapseWsGo_chain' : ∀ (b : Bool) (l : List Char),
    List.Chain' NotBothWs (collapseWsGo b l)
  | _, [] => List.chain'_nil
  | b, a :: l => by
    rw [collapseWsGo]
    by_cases h : isPySpace a
    · rw [if_pos h]
      by_cases hb : b
      · rw [if_pos hb]
        exact collapseWsGo_chain' true l
      · rw [if_neg hb]
        rw [List.chain'_cons']
        refine ⟨?_, collapseWsGo_chain' true l⟩
        intro y hy
        rcases heq : collapseWsGo true l with _ | ⟨c, rest⟩
        · rw [heq] at hy
          simp at hy
        · rw [heq] at hy
          simp only [List.head?_cons, Option.mem_def, Option.some.injEq] at hy
          subst hy
          intro hand
          rw [collapseWsGo_head_true l c rest heq] at hand
          exact absurd hand.2 (by decide)
    · rw [if_neg h]
      rw [List.chain'_cons']
      refine ⟨?_, collapseWsGo_chain' false l⟩
      intro y _ hand
      exact h hand.1

/-- Every character produced by the digit-run replacer is a space or a
non-digit input character; in particular it is never a digit. -/
lemma replDigitsGo_no_digit : ∀ (b : Bool) (l : List Char),
    ∀ c ∈ replDigitsGo b l, isPyDigit c = false
  | _, [], c => by simp [replDigitsGo]
  | b, a :: l, c => by
    rw [replDigitsGo]
    by_cases h : isPyDigit a
    · rw [if_pos h]
      by_cases hb : b
      · rw [if_pos hb]
        exact replDigitsGo_no_digit true l c
      · rw [if_neg hb]
        intro hc
        rcases List.mem_cons.mp hc with hc | hc
        · subst hc
          decide
        · exact replDigitsGo_no_digit true l c hc
    · rw [if_neg h]
      intro hc
      rcases List.mem_cons.mp hc with hc | hc
      · subst hc
        simpa using h
      · exact replDigitsGo_no_digit false l c hc

/-- The punctuation replacer preserves digit-freeness. -/
lemma replNonWord_no_digit (l : List Char) (h : ∀ c ∈ l, isPyDigit c = false) :
    ∀ c ∈ replNonWord l, isPyDigit c = false := by
  intro c hc
  unfold replNonWord at hc
  obtain ⟨a, ha, hac⟩ := List.mem_map.mp hc
  by_cases hcond : isWordChar a || isPySpace a
  · rw [if_pos hcond] at hac
    subst hac
    exact h a ha
  · rw [if_neg hcond] at hac
    subst hac
    decide

/-- The whitespace collapser only emits spaces or input characters. -/
lemma collapseWsGo_subset : ∀ (b : Bool) (l : List Char),
    ∀ c ∈ collapseWsGo b l, c ∈ l ∨ c = ' '
  | _, [], c => by simp [collapseWsGo]
  | b, a :: l, c => by
    rw [collapseWsGo]
    by_cases h : isPySpace a
    · rw [if_pos h]
      by_cases hb : b
      · rw [if_pos hb]
        intro hc
        rcases collapseWsGo_subset true l c hc with h1 | h1
        · exact Or.inl (List.mem_cons_of_mem a h1)
        · exact Or.inr h1
      · rw [if_neg hb]
        intro hc
        rcases List.mem_cons.mp hc with hc | hc
        · exact Or.inr hc
        · rcases collapseWsGo_subset true l c hc with h1 | h1
          · exact Or.inl (List.mem_cons_of_mem a h1)
          · exact Or.inr h1
    · rw [if_neg h]
      intro hc
      rcases List.mem_cons.mp hc with hc | hc
      · exact Or.inl (hc ▸ List.mem_cons_self a l)
      · rcases collapseWsGo_subset false l c hc with h1 | h1
        · exact Or.inl (List.mem_cons_of_mem a h1)
        · exact Or.inr h1

/-! ### Dictionary and ontology lemmas -/

/-- A successful dict lookup returns a binding of the dict. -/
lemma lookupLast_mem {k v : String} : ∀ {d : List (String × String)},
    lookupLast k d = some v → (k, v) ∈ d := by
  intro d
  induction d with
  | nil => intro h; exact Option.noConfusion h
  | cons p d ih =>
    intro h
    rw [lookupLast] at h
    split at h
    next w hw =>
      obtain rfl : w = v := Option.some.inj h
      exact List.mem_cons_of_mem p (ih hw)
    next hw =>
      split at h
      next hk =>
        obtain rfl : p.2 = v := Option.some.inj h
        exact List.mem_cons.mpr (Or.inl (by rw [← hk]))
      next hk => exact Option.noConfusion h

/-- A key bound in the dict is found by lookup. -/
lemma lookupLast_isSome_of_key {k : String} : ∀ {d : List (String × String)},
    k ∈ d.map Prod.fst → ∃ v, lookupLast k d = some v := by
  intro d
  induction d with
  | nil => intro h; simp at h
  | cons p d ih =>
    intro h
    rw [lookupLast]
    rcases hd : lookupLast k d with _ | w
    · show ∃ v, (if p.1 = k then some p.2 else none) = some v
      rw [List.map_cons] at h
      rcases List.mem_cons.mp h with hk | hk
      · exact ⟨p.2, by rw [if_pos hk.symm]⟩
      · obtain ⟨w, hw⟩ := ih hk
        rw [hw] at hd
        exact Option.noConfusion hd
    · exact ⟨w, rfl⟩

/-- A key absent from the dict is not found by lookup. -/
lemma lookupLast_eq_none {k : String} {d : List (String × String)}
    (h : k ∉ d.map Prod.fst) : lookupLast k d = none := by
  rcases hd : lookupLast k d with _ | v
  · rfl
  · exact absurd (List.mem_map.mpr ⟨(k, v), lookupLast_mem hd, rfl⟩) h

/-- Membership in `uniqueFirst`: an element survives iff it occurs and is
not among those already seen. -/
lemma mem_uniqueFirst {y : String} : ∀ {seen l : List String},
    y ∈ uniqueFirst seen l ↔ y ∈ l ∧ y ∉ seen := by
  intro seen l
  induction l generalizing seen with
  | nil => simp [uniqueFirst]
  | cons x xs ih =>
    rw [uniqueFirst]
    by_cases hx : x ∈ seen
    · rw [if_pos hx, ih]
      constructor
      · rintro ⟨h1, h2⟩
        exact ⟨List.mem_cons_of_mem x h1, h2⟩
      · rintro ⟨h1, h2⟩
        rcases List.mem_cons.mp h1 with h1 | h1
        · exact absurd (h1 ▸ hx) h2
        · exact ⟨h1, h2⟩
    · rw [if_neg hx]
      constructor
      · intro h
        rcases List.mem_cons.mp h with h | h
        · exact ⟨h ▸ List.mem_cons_self x xs, h ▸ hx⟩
        · obtain ⟨h1, h2⟩ := ih.mp h
          exact ⟨List.mem_cons_of_mem x h1,
            fun hs => h2 (List.mem_cons_of_mem x hs)⟩
      · rintro ⟨h1, h2⟩
        rcases List.mem_cons.mp h1 with h1 | h1
        · exact h1 ▸ List.mem_cons_self x _
        · by_cases hyx : y = x
          · exact hyx ▸ List.mem_cons_self x _
          · exact List.mem_cons_of_mem x (ih.mpr ⟨h1, by
              intro hs
              rcases List.mem_cons.mp hs with hs | hs
              · exact hyx hs
              · exact h2 hs⟩)

/-- A binding of `pref_map` pairs the lower-cased spelling of a preferred
label with that label. -/
lemma mem_pref_map {rows : List EscoRow} {k v : String}
    (h : (k, v) ∈ pref_map rows) :
    v ∈ rows.map (·.preferredLabel) ∧ k = lowerStr v := by
  obtain ⟨l, hl, hlv⟩ := List.mem_map.mp h
  rw [Prod.mk.injEq] at hlv
  obtain ⟨rfl, rfl⟩ := hlv
  exact ⟨(mem_uniqueFirst.mp hl).1, rfl⟩

/-- The keys of `pref_map` are exactly the lower-cased preferred labels. -/
lemma pref_map_keys {rows : List EscoRow} {k : String} :
    k ∈ (pref_map rows).map Prod.fst ↔ ∃ r ∈ rows, lowerStr r.preferredLabel = k := by
  unfold pref_map
  rw [List.map_map]
  constructor
  · intro h
    obtain ⟨l, hl, hlk⟩ := List.mem_map.mp h
    obtain ⟨r, hr, hrl⟩ := List.mem_map.mp (mem_uniqueFirst.mp hl).1
    exact ⟨r, hr, by rw [hrl, ← hlk]; rfl⟩
  · rintro ⟨r, hr, hrk⟩
    exact List.mem_map.mpr ⟨r.preferredLabel,
      mem_uniqueFirst.mpr ⟨List.mem_map.mpr ⟨r, hr, rfl⟩, List.not_mem_nil _⟩, hrk⟩

/-- Membership in `alt_map`: a binding pairs a stripped alternate label of
some row with that row's preferred label. -/
lemma mem_alt_map {rows : List EscoRow} {k v : String} :
    (k, v) ∈ alt_map rows ↔ ∃ r ∈ rows, k ∈ altKeys r ∧ v = r.preferredLabel := by
  unfold alt_map
  rw [List.mem_flatten]
  constructor
  · rintro ⟨chunk, hchunk, hkv⟩
    obtain ⟨r, hr, hrc⟩ := List.mem_map.mp hchunk
    subst hrc
    obtain ⟨a, ha, hakv⟩ := List.mem_map.mp hkv
    rw [Prod.mk.injEq] at hakv
    obtain ⟨rfl, rfl⟩ := hakv
    exact ⟨r, hr, ha, rfl⟩
  · rintro ⟨r, hr, hk, rfl⟩
    exact ⟨(altKeys r).map fun a => (a, r.preferredLabel),
      List.mem_map.mpr ⟨r, hr, rfl⟩, List.mem_map.mpr ⟨k, hk, rfl⟩⟩

/-- Specification of the `extractOne` fold: a returned best choice is one
of the choices, scored by the scorer. -/
lemma extractOne_fold_spec (σ : String → String → Nat) (q : String) :
    ∀ (choices : List String) (acc : Option (String × Nat)) (b : String) (sc : Nat),
      choices.foldl
        (fun acc c =>
          match acc with
          | none => some (c, σ q c)
          | some (b, s) => if s < σ q c then some (c, σ q c) else some (b, s))
        acc = some (b, sc) →
      acc = some (b, sc) ∨ (b ∈ choices ∧ sc = σ q b) := by
  intro choices
  induction choices with
  | nil => intro acc b sc h; exact Or.inl h
  | cons c cs ih =>
    intro acc b sc h
    rw [List.foldl_cons] at h
    rcases acc with _ | ⟨b0, s0⟩
    · rcases ih (some (c, σ q c)) b sc h with hacc | ⟨hmem, hsc⟩
      · simp only [Option.some.injEq, Prod.mk.injEq] at hacc
        obtain ⟨rfl, h2⟩ := hacc
        exact Or.inr ⟨List.mem_cons_self c cs, h2.symm⟩
      · exact Or.inr ⟨List.mem_cons_of_mem c hmem, hsc⟩
    · have hred : (match some (b0, s0) with
          | none => some (c, σ q c)
          | some (b, s) => if s < σ q c then some (c, σ q c) else some (b, s)) =
          if s0 < σ q c then some (c, σ q c) else some (b0, s0) := rfl
      rw [hred] at h
      by_cases hlt : s0 < σ q c
      · rw [if_pos hlt] at h
        rcases ih (some (c, σ q c)) b sc h with hacc | ⟨hmem, hsc⟩
        · simp only [Option.some.injEq, Prod.mk.injEq] at hacc
          obtain ⟨rfl, h2⟩ := hacc
          exact Or.inr ⟨List.mem_cons_self c cs, h2.symm⟩
        · exact Or.inr ⟨List.mem_cons_of_mem c hmem, hsc⟩
      · rw [if_neg hlt] at h
        rcases ih (some (b0, s0)) b sc h with hacc | ⟨hmem, hsc⟩
        · exact Or.inl hacc
        · exact Or.inr ⟨List.mem_cons_of_mem c hmem, hsc⟩

/-- A choice returned by `extractOne` is one of the choices, with its own
score. -/
lemma extractOne_spec {σ : String → String → Nat} {q : String}
    {choices : List String} {b : String} {sc : Nat}
    (h : extractOne σ q choices = some (b, sc)) : b ∈ choices ∧ sc = σ q b := by
  rcases extractOne_fold_spec σ q choices none b sc h with h1 | h1
  · exact Option.noConfusion h1
  · exact h1

/-- Any canonical label returned by `map_to_esco` is a preferred label of
the ontology. -/
lemma map_to_esco_closure {σ : String → String → Nat} {rows : List EscoRow}
    {p c : String} (h : map_to_esco σ rows p = some c) :
    c ∈ rows.map (·.preferredLabel) := by
  simp only [map_to_esco] at h
  split at h
  · exact Option.noConfusion h
  · split at h
    next v hv =>
      obtain rfl : v = c := Option.some.inj h
      exact (mem_pref_map (lookupLast_mem hv)).1
    next hv =>
      split at h
      next v hv2 =>
        obtain rfl : v = c := Option.some.inj h
        obtain ⟨r, hr, _, rfl⟩ := mem_alt_map.mp (lookupLast_mem hv2)
        exact List.mem_map.mpr ⟨r, hr, rfl⟩
      next hv2 =>
        split at h
        next b sc hext =>
          split at h
          · split at h
            next r hr =>
              obtain rfl : r.preferredLabel = c := Option.some.inj h
              exact List.mem_map.mpr ⟨r, List.mem_of_find?_eq_some hr, rfl⟩
            next => exact Option.noConfusion h
          · exact Option.noConfusion h
        next hext => exact Option.noConfusion h

/-! ### Evaluator lemmas -/

/-- The precision component in closed form: `|pred ∩ gt| / |pred|`, `0` on
an empty prediction set. -/
lemma metrics_fst (gt_set pred_set : Finset String) :
    (calculate_metrics gt_set pred_set).1 =
      if pred_set = ∅ then 0 else ((pred_set ∩ gt_set).card : ℚ) / (pred_set.card : ℚ) := by
  have hsum : (pred_set ∩ gt_set).card + (pred_set \ gt_set).card = pred_set.card :=
    Finset.card_inter_add_card_sdiff pred_set gt_set
  by_cases h : pred_set = ∅
  · subst h
    simp [calculate_metrics]
  · have hpos : 0 < pred_set.card :=
      Finset.card_pos.mpr (Finset.nonempty_iff_ne_empty.mpr h)
    have hQ : ((pred_set ∩ gt_set).card : ℚ) + ((pred_set \ gt_set).card : ℚ) =
        (pred_set.card : ℚ) := by exact_mod_cast congrArg (Nat.cast (R := ℚ)) hsum
    simp only [calculate_metrics]
    rw [if_pos (hsum ▸ hpos), if_neg h, hQ]

/-- The recall component in closed form: `|pred ∩ gt| / |gt|`, `0` on an
empty ground-truth set. -/
lemma metrics_snd (gt_set pred_set : Finset String) :
    (calculate_metrics gt_set pred_set).2.1 =
      if gt_set = ∅ then 0 else ((pred_set ∩ gt_set).card : ℚ) / (gt_set.card : ℚ) := by
  have hsum : (pred_set ∩ gt_set).card + (gt_set \ pred_set).card = gt_set.card := by
    rw [Finset.inter_comm]
    exact Finset.card_inter_add_card_sdiff gt_set pred_set
  by_cases h : gt_set = ∅
  · subst h
    simp [calculate_metrics]
  · have hpos : 0 < gt_set.card :=
      Finset.card_pos.mpr (Finset.nonempty_iff_ne_empty.mpr h)
    have hQ : ((pred_set ∩ gt_set).card : ℚ) + ((gt_set \ pred_set).card : ℚ) =
        (gt_set.card : ℚ) := by exact_mod_cast congrArg (Nat.cast (R := ℚ)) hsum
    simp only [calculate_metrics]
    rw [if_pos (hsum ▸ hpos), if_neg h, hQ]

/-- Both ratio components lie in `[0, 1]`. -/
lemma metrics_fst_mem_unit (gt_set pred_set : Finset String) :
    0 ≤ (calculate_metrics gt_set pred_set).1 ∧ (calculate_metrics gt_set pred_set).1 ≤ 1 := by
  rw [metrics_fst]
  by_cases h : pred_set = ∅
  · simp [h]
  · have hpos : 0 < pred_set.card :=
      Finset.card_pos.mpr (Finset.nonempty_iff_ne_empty.mpr h)
    have hposQ : (0 : ℚ) < (pred_set.card : ℚ) := by exact_mod_cast hpos
    have hle : (pred_set ∩ gt_set).card ≤ pred_set.card :=
      Finset.card_le_card (Finset.inter_subset_left)
    have hleQ : ((pred_set ∩ gt_set).card : ℚ) ≤ (pred_set.card : ℚ) := by exact_mod_cast hle
    rw [if_neg h]
    exact ⟨div_nonneg (by positivity) (le_of_lt hposQ), (div_le_one hposQ).mpr hleQ⟩

/-- Recall analogue of `metrics_fst_mem_unit`. -/
lemma metrics_snd_mem_unit (gt_set pred_set : Finset String) :
    0 ≤ (calculate_metrics gt_set pred_set).2.1 ∧ (calculate_metrics gt_set pred_set).2.1 ≤ 1 := by
  rw [metrics_snd]
  by_cases h : gt_set = ∅
  · simp [h]
  · have hpos : 0 < gt_set.card :=
      Finset.card_pos.mpr (Finset.nonempty_iff_ne_empty.mpr h)
    have hposQ : (0 : ℚ) < (gt_set.card : ℚ) := by exact_mod_cast hpos
    have hle : (pred_set ∩ gt_set).card ≤ gt_set.card :=
      Finset.card_le_card (Finset.inter_subset_right)
    have hleQ : ((pred_set ∩ gt_set).card : ℚ) ≤ (gt_set.card : ℚ) := by exact_mod_cast hle
    rw [if_neg h]
    exact ⟨div_nonneg (by positivity) (le_of_lt hposQ), (div_le_one hposQ).mpr hleQ⟩

/-- The F1 component in terms of the first two components: zero when both
are zero, else their harmonic mean. -/
lemma metrics_f1 (gt_set pred_set : Finset String) :
    (calculate_metrics gt_set pred_set).2.2 =
      if (calculate_metrics gt_set pred_set).1 = 0 ∧ (calculate_metrics gt_set pred_set).2.1 = 0
      then 0
      else 2 * ((calculate_metrics gt_set pred_set).1 * (calculate_metrics gt_set pred_set).2.1) /
        ((calculate_metrics gt_set pred_set).1 + (calculate_metrics gt_set pred_set).2.1) := by
  obtain ⟨hp0, _⟩ := metrics_fst_mem_unit gt_set pred_set
  obtain ⟨hr0, _⟩ := metrics_snd_mem_unit gt_set pred_set
  have hiff : (0 < (calculate_metrics gt_set pred_set).1 + (calculate_metrics gt_set pred_set).2.1)
      ↔ ¬((calculate_metrics gt_set pred_set).1 = 0 ∧ (calculate_metrics gt_set pred_set).2.1 = 0) := by
    constructor
    · rintro hlt ⟨h1, h2⟩
      rw [h1, h2] at hlt
      simp at hlt
    · intro hne
      rcases lt_or_eq_of_le hp0 with hp | hp
      · linarith
      · rcases lt_or_eq_of_le hr0 with hr | hr
        · linarith
        · exact absurd ⟨hp.symm, hr.symm⟩ hne
  show (if 0 < (calculate_metrics gt_set pred_set).1 + (calculate_metrics gt_set pred_set).2.1
        then _ else (0 : ℚ)) = _
  by_cases h : (calculate_metrics gt_set pred_set).1 = 0 ∧ (calculate_metrics gt_set pred_set).2.1 = 0
  · rw [if_neg (fun hlt => (hiff.mp hlt) h), if_pos h]
  · rw [if_pos (hiff.mpr h), if_neg h]
    rfl

/-- When the exact preferred-label lookup succeeds, the Mapper returns its
result, for any scorer. -/
lemma map_to_esco_of_pref {σ : String → String → Nat} {rows : List EscoRow} {p c : String}
    (hne : pyStrip (lowerStr p) ≠ "")
    (hc : lookupLast (pyStrip (lowerStr p)) (pref_map rows) = some c) :
    map_to_esco σ rows p = some c := by
  simp only [map_to_esco]
  rw [if_neg hne, hc]

/-- When the preferred-label lookup fails but the alternate-label lookup
succeeds, the Mapper returns the alternate-lookup result, for any scorer. -/
lemma map_to_esco_of_alt {σ : String → String → Nat} {rows : List EscoRow} {p v : String}
    (hne : pyStrip (lowerStr p) ≠ "")
    (hpref : lookupLast (pyStrip (lowerStr p)) (pref_map rows) = none)
    (halt : lookupLast (pyStrip (lowerStr p)) (alt_map rows) = some v) :
    map_to_esco σ rows p = some v := by
  simp only [map_to_esco]
  rw [if_neg hne, hpref, halt]

/-! ### Round-trip lemmas for the Mapper's joined output

These support the amended idempotence claim: cleaning the comma-joined
output string reconstructs exactly the lower-cased labels, under explicit
side conditions on the labels. -/

/-- Lower-casing fixes whitespace characters (they are concrete characters
outside the upper-case range). -/
lemma toLower_of_pySpace {c : Char} (h : isPySpace c = true) : Char.toLower c = c := by
  unfold isPySpace at h
  rcases Bool.or_eq_true_iff.mp h with h1 | h1
  · rcases Bool.or_eq_true_iff.mp h1 with h2 | h2
    · rcases Bool.or_eq_true_iff.mp h2 with h3 | h3
      · rcases Bool.or_eq_true_iff.mp h3 with h4 | h4
        · rcases Bool.or_eq_true_iff.mp h4 with h5 | h5
          · rw [eq_of_beq h5]
            decide
          · rw [eq_of_beq h5]
            decide
        · rw [eq_of_beq h4]
          decide
      · rw [eq_of_beq h3]
        decide
    · rw [eq_of_beq h2]
      decide
  · rw [eq_of_beq h1]
    decide

/-- A kept character is not a semicolon. -/
lemma isKept_ne_semicolon {c : Char} (h : isKeptChar c = true) : (c == ';') = false := by
  rcases hb : c == ';' with _ | _
  · rfl
  · rw [eq_of_beq hb] at h
    exact absurd h (by decide)

/-- A kept character is not a comma. -/
lemma isKept_ne_comma {c : Char} (h : isKeptChar c = true) : c ≠ ',' := by
  intro he
  rw [he] at h
  exact absurd h (by decide)

/-- The character-list shape of the Python join. -/
lemma pyJoin_data : ∀ L : List String,
    (pyJoinCommaSpace L).data = joinCommaSp (L.map (·.data))
  | [] => rfl
  | [x] => rfl
  | x :: y :: xs => by
    show (x ++ ", " ++ pyJoinCommaSpace (y :: xs)).data = _
    rw [String.data_append, String.data_append, pyJoin_data (y :: xs), List.append_assoc]
    rfl

/-- Lower-casing distributes through the join (the separator characters
are fixed points of `Char.toLower`). -/
lemma joinCommaSp_map_toLower : ∀ parts : List (List Char),
    (joinCommaSp parts).map Char.toLower = joinCommaSp (parts.map (List.map Char.toLower))
  | [] => rfl
  | [x] => rfl
  | x :: y :: xs => by
    show ((x ++ ',' :: ' ' :: joinCommaSp (y :: xs)).map Char.toLower) = _
    rw [List.map_append, List.map_cons, List.map_cons, joinCommaSp_map_toLower (y :: xs)]
    rfl

/-- Every character of a join is a character of some part or a separator
character. -/
lemma mem_joinCommaSp {c : Char} : ∀ {parts : List (List Char)},
    c ∈ joinCommaSp parts → (∃ part ∈ parts, c ∈ part) ∨ c = ',' ∨ c = ' ' := by
  intro parts
  induction parts with
  | nil => intro h; exact absurd h (List.not_mem_nil c)
  | cons x xs ih =>
    intro h
    rcases xs with _ | ⟨y, ys⟩
    · exact Or.inl ⟨x, List.mem_cons_self x [], h⟩
    · rcases List.mem_append.mp h with h1 | h1
      · exact Or.inl ⟨x, List.mem_cons_self x _, h1⟩
      · rcases List.mem_cons.mp h1 with h2 | h2
        · exact Or.inr (Or.inl h2)
        · rcases List.mem_cons.mp h2 with h3 | h3
          · exact Or.inr (Or.inr h3)
          · rcases ih h3 with ⟨part, hp, hc⟩ | h4
            · exact Or.inl ⟨part, List.mem_cons_of_mem x hp, hc⟩
            · exact Or.inr h4

/-- Single-character replacement fixes a list avoiding the pattern
character. -/
lemma replaceCharAll_eq_self {a b : Char} {l : List Char}
    (h : ∀ c ∈ l, (c == a) = false) : replaceCharAll a b l = l := by
  unfold replaceCharAll
  rw [show (List.map (fun c => if c == a then b else c) l) = List.map id l from
    List.map_congr_left fun c hc => by rw [h c hc]; rfl]
  exact List.map_id l

/-- The conjunction replacer fixes a list with no occurrence of
`' and '`. -/
lemma replaceAnd_eq_self : ∀ {l : List Char}, hasAndPat l = false → replaceAnd l = l := by
  intro l
  induction l with
  | nil => intro _; rfl
  | cons c cs ih =>
    intro h
    rw [hasAndPat] at h
    obtain ⟨h1, h2⟩ := Bool.or_eq_false_iff.mp h
    rw [replaceAnd.eq_def]
    split
    next restv heq =>
      injection heq with hc hcs
      subst hc
      subst hcs
      simp [andPat] at h1
    next cv csv hno heq =>
      injection heq with hc hcs
      subst hc
      subst hcs
      rw [ih h2]
    next heq => exact List.noConfusion heq

/-- Splitting a comma-free list yields one piece. -/
lemma splitCommaGo_no_comma : ∀ (x acc : List Char), (∀ c ∈ x, c ≠ ',') →
    splitCommaGo acc x = [acc.reverse ++ x]
  | [], acc => by
    intro _
    rw [List.append_nil]
    rfl
  | d :: x, acc => by
    intro h
    rw [splitCommaGo, if_neg (by
      intro hb
      exact h d (List.mem_cons_self d x) (eq_of_beq hb)),
      splitCommaGo_no_comma x (d :: acc) (fun c hc => h c (List.mem_cons_of_mem d hc)),
      List.reverse_cons, List.append_assoc]
    rfl

/-- Splitting consumes a comma after a comma-free block. -/
lemma splitCommaGo_append_comma : ∀ (x l acc : List Char), (∀ c ∈ x, c ≠ ',') →
    splitCommaGo acc (x ++ ',' :: l) = (acc.reverse ++ x) :: splitCommaGo [] l
  | [], l, acc => by
    intro _
    rw [List.nil_append, splitCommaGo, if_pos (by decide), List.append_nil]
  | d :: x, l, acc => by
    intro h
    rw [List.cons_append, splitCommaGo, if_neg (by
      intro hb
      exact h d (List.mem_cons_self d x) (eq_of_beq hb)),
      splitCommaGo_append_comma x l (d :: acc) (fun c hc => h c (List.mem_cons_of_mem d hc)),
      List.reverse_cons, List.append_assoc]
    rfl

/-- Splitting the comma-space join of comma-free parts recovers the parts,
each non-first part keeping the separator's space at its front. -/
lemma splitCommaGo_join : ∀ (ps : List (List Char)) (q acc : List Char),
    (∀ c ∈ q, c ≠ ',') → (∀ part ∈ ps, ∀ c ∈ part, c ≠ ',') →
    splitCommaGo acc (joinCommaSp (q :: ps)) =
      (acc.reverse ++ q) :: ps.map (fun part => ' ' :: part)
  | [], q, acc => by
    intro hq _
    exact splitCommaGo_no_comma q acc hq
  | r :: ps, q, acc => by
    intro hq hps
    show splitCommaGo acc (q ++ ',' :: ' ' :: joinCommaSp (r :: ps)) = _
    rw [splitCommaGo_append_comma q _ acc hq, splitCommaGo, if_neg (by decide),
      splitCommaGo_join ps r [' '] (hps r (List.mem_cons_self r ps))
        (fun part hp => hps part (List.mem_cons_of_mem r hp))]
    rfl

/-- Stripping ignores one leading space. -/
lemma pyStripList_cons_space (l : List Char) : pyStripList (' ' :: l) = pyStripList l := by
  unfold pyStripList
  rw [List.dropWhile_cons, if_pos (by decide)]

/-- A list stripping to nothing is all whitespace. -/
lemma all_space_of_pyStripList_eq_nil {l : List Char} (h : pyStripList l = []) :
    ∀ c ∈ l, isPySpace c = true := by
  unfold pyStripList at h
  rw [List.reverse_eq_nil_iff] at h
  have h2 := List.dropWhile_eq_nil_iff.mp h
  intro c hc
  rw [← List.takeWhile_append_dropWhile (p := isPySpace) (l := l)] at hc
  rcases List.mem_append.mp hc with hc | hc
  · exact List.mem_takeWhile_imp hc
  · exact h2 c (List.mem_reverse.mpr hc)

/-- The candidate filter accepts a fragment stripping to a non-numeric
value of length at least two. -/
lemma candidateKeep_of {x y : List Char} (hs : pyStripList x = y) (hl : 1 < y.length)
    (hd : isAllDigits y = false) : candidateKeep x = true := by
  unfold candidateKeep
  rw [hs, hd]
  have hne : y.isEmpty = false := by
    cases y with
    | nil => simp at hl
    | cons a l => rfl
  rw [hne]
  simp [hl]

/-- The join of a non-empty list of parts begins with the first part. -/
lemma joinCommaSp_cons_eq_append : ∀ (x : List Char) (xs : List (List Char)),
    ∃ t, joinCommaSp (x :: xs) = x ++ t
  | x, [] => ⟨[], (List.append_nil x).symm⟩
  | _, y :: xs => ⟨',' :: ' ' :: joinCommaSp (y :: xs), rfl⟩

/-- Cleaning the comma-space join of labels whose lower-casings consist of
kept characters, are strip-invariant, have length at least two, are not
purely numeric, and whose join contains no `' and '`, reconstructs exactly
the lower-cased labels. -/
lemma clean_join (L : List String) (hL : L ≠ [])
    (hkept : ∀ l ∈ L, ∀ c ∈ (lowerStr l).data, isKeptChar c = true)
    (hstrip : ∀ l ∈ L, pyStripList (lowerStr l).data = (lowerStr l).data)
    (hlen : ∀ l ∈ L, 1 < (lowerStr l).data.length)
    (hdig : ∀ l ∈ L, isAllDigits (lowerStr l).data = false)
    (hand : hasAndPat (lowerStr (pyJoinCommaSpace L)).data = false) :
    clean_extracted_skills (some (pyJoinCommaSpace L)) = (L.map lowerStr).dedup := by
  obtain ⟨q, ps, rfl⟩ := List.exists_cons_of_ne_nil hL
  have hparts : (lowerStr (pyJoinCommaSpace (q :: ps))).data =
      joinCommaSp ((q :: ps).map fun l => (lowerStr l).data) := by
    show (pyJoinCommaSpace (q :: ps)).data.map Char.toLower = _
    rw [pyJoin_data, joinCommaSp_map_toLower, List.map_map]
    rfl
  have hqmem : q ∈ q :: ps := List.mem_cons_self q ps
  have hqne : (lowerStr q).data ≠ [] := by
    have h1 := hlen q hqmem
    intro he
    rw [he] at h1
    simp at h1
  have hqhead : ∀ c ∈ ((lowerStr q).data).head?, isPySpace c = false := by
    have h1 := pyStripList_head ((lowerStr q).data)
    rw [hstrip q hqmem] at h1
    exact h1
  have hguard : ¬ pyStrip (pyJoinCommaSpace (q :: ps)) = "" := by
    intro hg
    have hg2 : pyStripList (pyJoinCommaSpace (q :: ps)).data = [] := by
      have := congrArg String.data hg
      exact this
    rcases hqd : q.data with _ | ⟨c1, qrest⟩
    · apply hqne
      show q.data.map Char.toLower = []
      rw [hqd]
      rfl
    · obtain ⟨t, ht⟩ := joinCommaSp_cons_eq_append q.data (ps.map (·.data))
      have hc1mem : c1 ∈ (pyJoinCommaSpace (q :: ps)).data := by
        rw [pyJoin_data]
        show c1 ∈ joinCommaSp (q.data :: ps.map (·.data))
        rw [ht, hqd]
        exact List.mem_append.mpr (Or.inl (List.mem_cons_self c1 qrest))
      have hws : isPySpace c1 = true := all_space_of_pyStripList_eq_nil hg2 c1 hc1mem
      have hhead : ((lowerStr q).data).head? = some (Char.toLower c1) := by
        show (q.data.map Char.toLower).head? = _
        rw [hqd]
        rfl
      have h2 := hqhead (Char.toLower c1) hhead
      rw [toLower_of_pySpace hws, hws] at h2
      exact Bool.noConfusion h2
  simp only [clean_extracted_skills]
  rw [if_neg hguard]
  have hsemi : replaceCharAll ';' ',' (lowerStr (pyJoinCommaSpace (q :: ps))).data =
      (lowerStr (pyJoinCommaSpace (q :: ps))).data :=
    replaceCharAll_eq_self (by
      intro c hc
      rw [hparts] at hc
      rcases mem_joinCommaSp hc with ⟨part, hp, hcp⟩ | hc2 | hc2
      · obtain ⟨l, hl, hlp⟩ := List.mem_map.mp hp
        exact isKept_ne_semicolon (hkept l hl c (hlp ▸ hcp))
      · rw [hc2]
        decide
      · rw [hc2]
        decide)
  rw [hsemi, replaceAnd_eq_self hand, hparts]
  have hnocomma : ∀ l ∈ q :: ps, ∀ c ∈ (lowerStr l).data, c ≠ ',' := fun l hl c hc =>
    isKept_ne_comma (hkept l hl c hc)
  have hsplit := splitCommaGo_join (ps.map fun l => (lowerStr l).data) ((lowerStr q).data) []
    (hnocomma q hqmem)
    (by
      intro part hp c hc
      obtain ⟨l, hl, rfl⟩ := List.mem_map.mp hp
      exact hnocomma l (List.mem_cons_of_mem q hl) c hc)
  rw [List.reverse_nil, List.nil_append] at hsplit
  rw [show ((q :: ps).map fun l => (lowerStr l).data) =
    (lowerStr q).data :: ps.map (fun l => (lowerStr l).data) from rfl]
  rw [show splitComma (joinCommaSp ((lowerStr q).data :: ps.map fun l => (lowerStr l).data)) =
    splitCommaGo [] (joinCommaSp ((lowerStr q).data :: ps.map fun l => (lowerStr l).data))
    from rfl]
  rw [hsplit]
  have hfilter :
      ((lowerStr q).data :: (ps.map fun l => (lowerStr l).data).map (fun part => ' ' :: part)).filter
        candidateKeep =
      (lowerStr q).data :: (ps.map fun l => (lowerStr l).data).map (fun part => ' ' :: part) := by
    apply List.filter_eq_self.mpr
    intro a ha
    rcases List.mem_cons.mp ha with rfl | ha2
    · exact candidateKeep_of (hstrip q hqmem) (hlen q hqmem) (hdig q hqmem)
    · obtain ⟨x, hx, rfl⟩ := List.mem_map.mp ha2
      obtain ⟨l, hl, rfl⟩ := List.mem_map.mp hx
      have hlm : l ∈ q :: ps := List.mem_cons_of_mem q hl
      exact candidateKeep_of
        ((pyStripList_cons_space (lowerStr l).data).trans (hstrip l hlm))
        (hlen l hlm) (hdig l hlm)
  rw [hfilter]
  rw [List.map_cons]
  have hfirst : String.mk (pyStripList (subAllowed (lowerStr q).data)) = lowerStr q := by
    rw [show subAllowed (lowerStr q).data = (lowerStr q).data from
      List.filter_eq_self.mpr (hkept q hqmem), hstrip q hqmem]
  have hrest :
      ((ps.map fun l => (lowerStr l).data).map (fun part => ' ' :: part)).map
        (fun c => String.mk (pyStripList (subAllowed c))) = ps.map lowerStr := by
    rw [List.map_map, List.map_map]
    apply List.map_congr_left
    intro l hl
    have hlm : l ∈ q :: ps := List.mem_cons_of_mem q hl
    show String.mk (pyStripList (subAllowed (' ' :: (lowerStr l).data))) = lowerStr l
    rw [show subAllowed (' ' :: (lowerStr l).data) = ' ' :: subAllowed (lowerStr l).data from
      List.filter_cons_of_pos (by decide),
      show subAllowed (lowerStr l).data = (lowerStr l).data from
        List.filter_eq_self.mpr (hkept l hlm),
      pyStripList_cons_space, hstrip l hlm]
  rw [hfirst, hrest]
  rfl

/-- Membership in the insertion step of the sort. -/
lemma mem_insertStr {x y : String} : ∀ {l : List String},
    y ∈ insertStr x l ↔ y = x ∨ y ∈ l := by
  intro l
  induction l with
  | nil => simp [insertStr]
  | cons a l ih =>
    rw [insertStr]
    by_cases hle : strLeB x a
    · rw [if_pos hle]
      simp
    · rw [if_neg hle]
      rw [List.mem_cons, ih, List.mem_cons]
      tauto

/-- Sorting preserves membership. -/
lemma mem_sortStrs {y : String} : ∀ {M : List String}, y ∈ sortStrs M ↔ y ∈ M := by
  intro M
  induction M with
  | nil => simp [sortStrs]
  | cons a M ih =>
    rw [sortStrs, mem_insertStr, ih, List.mem_cons]

/-- Insertion never yields the empty list. -/
lemma insertStr_ne_nil (x : String) : ∀ (l : List String), insertStr x l ≠ []
  | [] => by
    intro h
    exact List.noConfusion h
  | a :: l => by
    rw [insertStr]
    by_cases hle : strLeB x a
    · rw [if_pos hle]
      intro h
      exact List.noConfusion h
    · rw [if_neg hle]
      intro h
      exact List.noConfusion h

/-- Sorting a non-empty list yields a non-empty list. -/
lemma sortStrs_ne_nil {M : List String} (h : M ≠ []) : sortStrs M ≠ [] := by
  cases M with
  | nil => exact absurd rfl h
  | cons a M => exact insertStr_ne_nil a (sortStrs M)

section Scratch

/-- A ready-made trivial scorer for concrete instances where the fuzzy
branch is never reached. -/
def zeroScorer : String → String → Nat := fun _ _ => 0

def rowsA : List EscoRow :=
  [⟨"research and development", some "rnd"⟩, ⟨"development", none⟩, ⟨"research", none⟩]

def rowsB : List EscoRow :=
  [⟨"Python", some "python3|py"⟩, ⟨"SQL", none⟩]

example : map_to_esco zeroScorer rowsA "rnd" = some "research and development" := by decide
example : mapperSet zeroScorer rowsA (some "rnd") = {"research and development"} := by decide
example : mapped_skills_str zeroScorer rowsA (some "rnd") = "research and development" := by decide
example :
    mapperSet zeroScorer rowsA (some (mapped_skills_str zeroScorer rowsA (some "rnd"))) =
      {"research", "development"} := by decide
example : calculate_metrics {"python", "r"} {"python", "sql"} = (1/2, 1/2, 1/2) := by
  have h1 : (({"python", "sql"} : Finset String) ∩ {"python", "r"}).card = 1 := by decide
  have h2 : (({"python", "sql"} : Finset String) \ {"python", "r"}).card = 1 := by decide
  have h3 : (({"python", "r"} : Finset String) \ {"python", "sql"}).card = 1 := by decide
  simp only [calculate_metrics, h1, h2, h3]
  norm_num

end Scratch

/-! ## Claim theorems -/

/-- C1: Evaluator metric definitions: for every mapped skill set `M` and
expected skill set `E`, precision is `|M ∩ E| / |M|` (`0` when `M` is
empty), recall is `|M ∩ E| / |E|` (`0` when `E` is empty), and F1 is the
harmonic mean of precision and recall (`0` when both are `0`); in
particular, for `M = {"python", "sql"}` and `E = {"python", "r"}` the
result is precision `= 0.5`, recall `= 0.5`, F1 `= 0.5`.  The notebook
calls `calculate_metrics(expected, mapped)`, so `gt_set = E` and
`pred_set = M`. -/
theorem claim_C1_evaluator_metrics :
    (∀ M E : Finset String,
      (calculate_metrics E M).1 = (if M = ∅ then 0 else ((M ∩ E).card : ℚ) / (M.card : ℚ)) ∧
      (calculate_metrics E M).2.1 = (if E = ∅ then 0 else ((M ∩ E).card : ℚ) / (E.card : ℚ)) ∧
      (calculate_metrics E M).2.2 =
        (if (calculate_metrics E M).1 = 0 ∧ (calculate_metrics E M).2.1 = 0 then 0
         else 2 * ((calculate_metrics E M).1 * (calculate_metrics E M).2.1) /
           ((calculate_metrics E M).1 + (calculate_metrics E M).2.1))) ∧
    calculate_metrics {"python", "r"} {"python", "sql"} = (1/2, 1/2, 1/2) := by
  constructor
  · intro M E
    exact ⟨metrics_fst E M, metrics_snd E M, metrics_f1 E M⟩
  · have h1 : (({"python", "sql"} : Finset String) ∩ {"python", "r"}).card = 1 := by decide
    have h2 : (({"python", "sql"} : Finset String) \ {"python", "r"}).card = 1 := by decide
    have h3 : (({"python", "r"} : Finset String) \ {"python", "sql"}).card = 1 := by decide
    simp only [calculate_metrics, h1, h2, h3]
    norm_num

/-- C2: for every candidate phrase present verbatim, up to case and the
Mapper's own whitespace strip, as a canonical label or as an alternate
label of the ontology, the Mapper returns exactly the corresponding
canonical label, regardless of the fuzzy scorer (quantifying the conclusion
over every scorer `σ` formalizes "without invoking fuzzy matching"); the
first conjunct holds whether or not the phrase is also an alternate label,
which formalizes the canonical-before-alternate lookup order. -/
theorem claim_C2_exact_match_precedence (rows : List EscoRow) (p : String)
    (hne : pyStrip (lowerStr p) ≠ "") :
    ((∃ r ∈ rows, lowerStr r.preferredLabel = pyStrip (lowerStr p)) →
      ∃ c, lowerStr c = pyStrip (lowerStr p) ∧ c ∈ rows.map (·.preferredLabel) ∧
        ∀ σ : String → String → Nat, map_to_esco σ rows p = some c) ∧
    ((∀ r ∈ rows, lowerStr r.preferredLabel ≠ pyStrip (lowerStr p)) →
      ∀ r0 ∈ rows, pyStrip (lowerStr p) ∈ altKeys r0 →
      ∃ r ∈ rows, pyStrip (lowerStr p) ∈ altKeys r ∧
        ∀ σ : String → String → Nat, map_to_esco σ rows p = some r.preferredLabel) := by
  constructor
  · intro hpref
    obtain ⟨v, hv⟩ := lookupLast_isSome_of_key (pref_map_keys.mpr hpref)
    obtain ⟨hvmem, hkv⟩ := mem_pref_map (lookupLast_mem hv)
    exact ⟨v, hkv.symm, hvmem, fun σ => map_to_esco_of_pref hne hv⟩
  · intro hnopref r0 hr0 halt
    have hprefnone : lookupLast (pyStrip (lowerStr p)) (pref_map rows) = none :=
      lookupLast_eq_none fun hmem => by
        obtain ⟨r, hr, hrl⟩ := pref_map_keys.mp hmem
        exact hnopref r hr hrl
    have hkey : pyStrip (lowerStr p) ∈ (alt_map rows).map Prod.fst :=
      List.mem_map.mpr ⟨(pyStrip (lowerStr p), r0.preferredLabel),
        mem_alt_map.mpr ⟨r0, hr0, halt, rfl⟩, rfl⟩
    obtain ⟨v, hv⟩ := lookupLast_isSome_of_key hkey
    obtain ⟨r, hr, hkr, rfl⟩ := mem_alt_map.mp (lookupLast_mem hv)
    exact ⟨r, hr, hkr, fun σ => map_to_esco_of_alt hne hprefnone hv⟩

/-- Witness for C2 at a concrete ontology: `"PYTHON"` exact-matches the
canonical label `"Python"` and `"py"` matches the alternate label list
`"python3|py"` of that row. -/
theorem claim_C2_witness :
    (∃ c, lowerStr c = pyStrip (lowerStr "PYTHON") ∧ c ∈ rowsB.map (·.preferredLabel) ∧
      ∀ σ : String → String → Nat, map_to_esco σ rowsB "PYTHON" = some c) ∧
    (∃ r ∈ rowsB, pyStrip (lowerStr "py") ∈ altKeys r ∧
      ∀ σ : String → String → Nat, map_to_esco σ rowsB "py" = some r.preferredLabel) := by
  constructor
  · exact (claim_C2_exact_match_precedence rowsB "PYTHON" (by decide)).1
      ⟨⟨"Python", some "python3|py"⟩, by decide, by decide⟩
  · exact (claim_C2_exact_match_precedence rowsB "py" (by decide)).2
      (by decide) ⟨"Python", some "python3|py"⟩ (by decide) (by decide)

/-- C3: a candidate phrase with no exact canonical or alternate match and a
fuzzy score below 60 against every canonical label resolves to nothing and
contributes nothing to the Mapper's output list. -/
theorem claim_C3_fuzzy_threshold (σ : String → String → Nat) (rows : List EscoRow) (p : String)
    (hnopref : ∀ r ∈ rows, lowerStr r.preferredLabel ≠ pyStrip (lowerStr p))
    (hnoalt : ∀ r ∈ rows, pyStrip (lowerStr p) ∉ altKeys r)
    (hlow : ∀ lab ∈ escoLowerList rows, σ (pyStrip (lowerStr p)) lab < 60) :
    map_to_esco σ rows p = none ∧
    ∀ cands : List String, mappedLabels σ rows (p :: cands) = mappedLabels σ rows cands := by
  have hmain : map_to_esco σ rows p = none := by
    by_cases hne : pyStrip (lowerStr p) = ""
    · simp only [map_to_esco]
      rw [if_pos hne]
    · have hprefnone : lookupLast (pyStrip (lowerStr p)) (pref_map rows) = none :=
        lookupLast_eq_none fun hmem => by
          obtain ⟨r, hr, hrl⟩ := pref_map_keys.mp hmem
          exact hnopref r hr hrl
      have haltnone : lookupLast (pyStrip (lowerStr p)) (alt_map rows) = none :=
        lookupLast_eq_none fun hmem => by
          obtain ⟨q, hq, hq1⟩ := List.mem_map.mp hmem
          rcases q with ⟨k', v'⟩
          obtain ⟨r, hr, hkr, _⟩ := mem_alt_map.mp hq
          exact hnoalt r hr (by rw [← hq1]; exact hkr)
      simp only [map_to_esco]
      rw [if_neg hne, hprefnone, haltnone]
      rcases hext : extractOne σ (pyStrip (lowerStr p)) (escoLowerList rows) with _ | ⟨b, sc⟩
      · rfl
      · obtain ⟨hbmem, hsc⟩ := extractOne_spec hext
        have h60 : ¬ 60 ≤ sc := by
          have := hlow b hbmem
          omega
        show (if 60 ≤ sc then _ else none) = none
        rw [if_neg h60]
  refine ⟨hmain, fun cands => ?_⟩
  simp only [mappedLabels, List.filterMap_cons, hmain]

/-- Witness for C3 at a concrete ontology and scorer: the phrase `"qq"` has
no exact match in `rowsB` and the constant-zero scorer stays below the
threshold, so the phrase is dropped. -/
theorem claim_C3_witness :
    map_to_esco zeroScorer rowsB "qq" = none ∧
    mappedLabels zeroScorer rowsB ["qq"] = mappedLabels zeroScorer rowsB [] := by
  have h := claim_C3_fuzzy_threshold zeroScorer rowsB "qq" (by decide) (by decide) (by decide)
  exact ⟨h.1, h.2 []⟩

/-- C5: every label in the Ontology Mapper's output set is a canonical
label (`preferredLabel`) of the loaded ontology, for every input and every
scorer. -/
theorem claim_C5_canonical_closure (σ : String → String → Nat) (rows : List EscoRow)
    (raw : Option String) (c : String) (hc : c ∈ mapperSet σ rows raw) :
    c ∈ rows.map (·.preferredLabel) := by
  simp only [mapperSet, mapperLabels, mappedLabels, List.mem_toFinset,
    List.mem_filterMap] at hc
  obtain ⟨p, _, hp⟩ := hc
  exact map_to_esco_closure hp

/-- Witness for C5 at a concrete input: the mapped label of raw output
`"rnd"` is a preferred label of the fixture ontology. -/
theorem claim_C5_witness :
    "research and development" ∈ mapperSet zeroScorer rowsA (some "rnd") ∧
    "research and development" ∈ rowsA.map (·.preferredLabel) := by
  have hmem : "research and development" ∈ mapperSet zeroScorer rowsA (some "rnd") := by decide
  exact ⟨hmem, claim_C5_canonical_closure zeroScorer rowsA (some "rnd") _ hmem⟩

/-- C4 counterexample: the Mapper is not idempotent.  With the ontology
rows `"research and development"` (alternate label `"rnd"`),
`"development"`, `"research"`, the raw output `"rnd"` maps to the set
`{"research and development"}` via the alternate-label lookup; re-running
the pipeline on the comma-joined output replaces the literal `" and "` by
`", "` during cleaning, splitting the label into `"research"` and
`"development"`, which exact-match the other two canonical labels.  Every
phrase involved resolves through an exact lookup, so no fuzzy score is
consulted and the constant-zero scorer is general. -/
theorem claim_C4_counterexample :
    mapperSet zeroScorer rowsA (some (mapped_skills_str zeroScorer rowsA (some "rnd"))) ≠
      mapperSet zeroScorer rowsA (some "rnd") := by decide

/-- C4 (amended): re-running the Mapper pipeline (cleaning the comma-joined
output string into candidate phrases, then resolving each phrase) on its
own output yields the same set of canonical labels, provided every
produced label, after lower-casing, consists only of characters the
cleaner keeps (in particular it contains no comma and no semicolon), has
no surrounding whitespace, has length at least two, is not purely numeric,
and resolves back to itself through the Mapper, and provided the joined
output string contains no occurrence of the literal conjunction
`' and '`. -/
theorem claim_C4_mapper_idempotence (σ : String → String → Nat) (rows : List EscoRow)
    (raw : Option String)
    (hgood : ∀ l ∈ mapperLabels σ rows raw,
      (∀ c ∈ (lowerStr l).data, isKeptChar c = true) ∧
      pyStripList (lowerStr l).data = (lowerStr l).data ∧
      1 < (lowerStr l).data.length ∧
      isAllDigits (lowerStr l).data = false ∧
      map_to_esco σ rows (lowerStr l) = some l)
    (hand : hasAndPat (lowerStr (mapped_skills_str σ rows raw)).data = false) :
    mapperSet σ rows (some (mapped_skills_str σ rows raw)) = mapperSet σ rows raw := by
  by_cases hM : mapperLabels σ rows raw = []
  · have hsort : sortStrs (mapperLabels σ rows raw) = [] := by
      rw [hM]
      rfl
    show (mappedLabels σ rows (clean_extracted_skills
      (some (pyJoinCommaSpace (sortStrs (mapperLabels σ rows raw)))))).toFinset =
      (mapperLabels σ rows raw).toFinset
    rw [hsort, show clean_extracted_skills (some (pyJoinCommaSpace [])) = [] from by decide, hM]
    rfl
  · have hclean := clean_join (sortStrs (mapperLabels σ rows raw)) (sortStrs_ne_nil hM)
      (fun l hl => (hgood l (mem_sortStrs.mp hl)).1)
      (fun l hl => (hgood l (mem_sortStrs.mp hl)).2.1)
      (fun l hl => (hgood l (mem_sortStrs.mp hl)).2.2.1)
      (fun l hl => (hgood l (mem_sortStrs.mp hl)).2.2.2.1)
      hand
    show (mappedLabels σ rows (clean_extracted_skills
      (some (pyJoinCommaSpace (sortStrs (mapperLabels σ rows raw)))))).toFinset =
      (mapperLabels σ rows raw).toFinset
    rw [hclean]
    ext c
    simp only [List.mem_toFinset, mappedLabels, List.mem_filterMap, List.mem_dedup,
      List.mem_map]
    constructor
    · rintro ⟨p, ⟨l, hls, rfl⟩, hq⟩
      have hlM : l ∈ mapperLabels σ rows raw := mem_sortStrs.mp hls
      rw [(hgood l hlM).2.2.2.2] at hq
      obtain rfl : l = c := Option.some.inj hq
      exact hlM
    · intro hc
      exact ⟨lowerStr c, ⟨c, mem_sortStrs.mpr hc, rfl⟩, (hgood c hc).2.2.2.2⟩

/-- Witness for the amended C4 theorem at a concrete ontology: the output
set produced from raw `"python, sql"` survives a re-run unchanged. -/
theorem claim_C4_witness :
    mapperSet zeroScorer rowsB
        (some (mapped_skills_str zeroScorer rowsB (some "python, sql"))) =
      mapperSet zeroScorer rowsB (some "python, sql") :=
  claim_C4_mapper_idempotence zeroScorer rowsB (some "python, sql")
    (by decide) (by decide)

/-- C7: for a non-string cell (`none`, the pandas `NaN`) the Text Normalizer
column pipeline yields `NaN` again and for the empty string it yields the
empty string — a missing/empty result, with no exception raised (the
embedding is a total function); the LLM-output cleaner at the Mapper
boundary yields the empty set on non-string and on empty input.  In neither
case is a failure propagated. -/
theorem claim_C7_malformed_input :
    Text_CleanCell none = none ∧ Text_CleanCell (some "") = some "" ∧
    clean_extracted_skills none = [] ∧ clean_extracted_skills (some "") = [] :=
  ⟨rfl, by decide, rfl, by decide⟩

/-- C9: for every input string, the Text Normalizer's output contains no
digit characters and no two consecutive space characters. -/
theorem claim_C9_normalizer_shape (s : String) :
    (∀ c ∈ (Text_Clean s).data, isPyDigit c = false) ∧
    List.Chain' (fun a b => ¬(a = ' ' ∧ b = ' ')) (Text_Clean s).data := by
  constructor
  · intro c hc
    have hc' : c ∈ collapseWs (replNonWord (replDigits (s.data.map Char.toLower))) :=
      mem_of_mem_pyStripList hc
    rcases collapseWsGo_subset false _ c hc' with h1 | h1
    · exact replNonWord_no_digit _ (replDigitsGo_no_digit false _) c h1
    · subst h1
      decide
  · have hch : List.Chain' NotBothWs
        (pyStripList (collapseWs (replNonWord (replDigits (s.data.map Char.toLower))))) :=
      chain'_notBothWs_pyStripList (collapseWsGo_chain' false _)
    exact hch.imp fun a b hab ⟨ha, hb⟩ =>
      hab ⟨by rw [ha]; decide, by rw [hb]; decide⟩

/-- C6 counterexample: `clean_extracted_skills` applies its non-empty,
length and numeric filters to the raw fragment before stripping
punctuation, so the raw input `"!!"` (one fragment of length 2) puts the
empty phrase into the candidate set, refuting both the non-emptiness and
the length guarantee of the claim. -/
theorem claim_C6_counterexample :
    "" ∈ clean_extracted_skills (some "!!") ∧
    ¬(∀ p ∈ clean_extracted_skills (some "!!"), p ≠ "") := by decide

/-- C6 (amended): every phrase in the candidate skill set consists only of
characters kept by the cleaner (lower-case letters, digits, whitespace,
periods, plus-signs, hash marks and hyphens — so tokens like `"c++"` and
`"c#"` are preserved) and carries no leading or trailing whitespace; the
non-emptiness, length `> 1` and non-numeric filters apply to the raw
comma-separated fragment before punctuation stripping, so the final phrase
itself may be empty, single-character or purely numeric. -/
theorem claim_C6_candidate_filtering (t : Option String) (p : String)
    (hp : p ∈ clean_extracted_skills t) :
    (∀ c ∈ p.data, isKeptChar c = true) ∧ pyStrip p = p := by
  cases t with
  | none => exact absurd hp (List.not_mem_nil p)
  | some s =>
    simp only [clean_extracted_skills] at hp
    by_cases hs : pyStrip s = ""
    · rw [if_pos hs] at hp
      exact absurd hp (List.not_mem_nil p)
    · rw [if_neg hs] at hp
      rw [List.mem_dedup] at hp
      obtain ⟨c, _, hcp⟩ := List.mem_map.mp hp
      subst hcp
      constructor
      · intro ch hch
        have hmem : ch ∈ subAllowed c := mem_of_mem_pyStripList hch
        exact List.of_mem_filter hmem
      · show pyStrip ⟨pyStripList (subAllowed c)⟩ = ⟨pyStripList (subAllowed c)⟩
        exact congrArg String.mk (pyStripList_idem (subAllowed c))

/-- Witness for the amended C6 theorem at a concrete input: the phrase
`"c++"` produced from the raw output `"C++, SQL!"`. -/
theorem claim_C6_candidate_filtering_witness :
    "c++" ∈ clean_extracted_skills (some "C++, SQL!") ∧
    ((∀ c ∈ ("c++" : String).data, isKeptChar c = true) ∧ pyStrip "c++" = "c++") := by
  have hmem : "c++" ∈ clean_extracted_skills (some "C++, SQL!") := by decide
  exact ⟨hmem, claim_C6_candidate_filtering (some "C++, SQL!") "c++" hmem⟩

/-- C8 counterexample: with a client whose only call raises a timeout, the
batch apply over two records evaluates to the single propagated failure:
the whole batch aborts instead of surfacing the failure per-record, no
retry happens (the extraction function performs exactly one call, so a
second, succeeding attempt is never consulted), and the record's result is
the propagated error — refuting the claimed retry-with-backoff and
per-record surfacing. -/
theorem claim_C8_counterexample :
    batchExtract (fun _ => Except.error InferErr.timeout) ["resume a", "resume b"] =
      Except.error InferErr.timeout ∧
    extract_skills_llama3_sambanova (fun _ => Except.error InferErr.timeout) "resume a" =
      Except.error InferErr.timeout := ⟨rfl, rfl⟩

/-- C8 (amended): the Skill Extractor performs a single inference call per
record with no retry or backoff; when the remote call fails, both
extraction functions propagate the failure, the batch application aborts
with that failure, and no empty extraction result is ever substituted for
the failed record. -/
theorem claim_C8_failure_propagation (client : List ChatMsg → Except InferErr String)
    (r : String) (e : InferErr) (hfail : ∀ msgs, client msgs = Except.error e) :
    extract_skills_llama3_sambanova client r = Except.error e ∧
    (∀ ctx few : String, extract_skills_llama3_sambanova_kg r ctx few client = Except.error e) ∧
    (∀ rest : List String, batchExtract client (r :: rest) = Except.error e) ∧
    extract_skills_llama3_sambanova client r ≠ Except.ok "" := by
  have hex : extract_skills_llama3_sambanova client r = Except.error e := hfail _
  refine ⟨hex, fun ctx few => hfail _, fun rest => ?_, by
    rw [hex]
    exact fun h => Except.noConfusion h⟩
  rw [batchExtract, hex]

/-- Witness for the amended C8 theorem at a concrete failing client. -/
theorem claim_C8_witness :
    extract_skills_llama3_sambanova (fun _ => Except.error InferErr.network) "resume" =
      Except.error InferErr.network ∧
    batchExtract (fun _ => Except.error InferErr.network) ["resume", "other"] =
      Except.error InferErr.network ∧
    extract_skills_llama3_sambanova (fun _ => Except.error InferErr.network) "resume" ≠
      Except.ok "" := by
  have h := claim_C8_failure_propagation (fun _ => Except.error InferErr.network) "resume"
    InferErr.network (fun _ => rfl)
  exact ⟨h.1, h.2.2.1 ["other"], h.2.2.2⟩

/-- C10: for every pair of finite ground-truth and predicted skill sets,
each of the precision, recall, and F1 values returned by
`calculate_metrics` lies between `0` and `1` inclusive. -/
theorem claim_C10_metric_bounds (gt_set pred_set : Finset String) :
    (0 ≤ (calculate_metrics gt_set pred_set).1 ∧ (calculate_metrics gt_set pred_set).1 ≤ 1) ∧
    (0 ≤ (calculate_metrics gt_set pred_set).2.1 ∧ (calculate_metrics gt_set pred_set).2.1 ≤ 1) ∧
    (0 ≤ (calculate_metrics gt_set pred_set).2.2 ∧ (calculate_metrics gt_set pred_set).2.2 ≤ 1) := by
  obtain ⟨hp0, hp1⟩ := metrics_fst_mem_unit gt_set pred_set
  obtain ⟨hr0, hr1⟩ := metrics_snd_mem_unit gt_set pred_set
  refine ⟨⟨hp0, hp1⟩, ⟨hr0, hr1⟩, ?_⟩
  rw [metrics_f1]
  by_cases h : (calculate_metrics gt_set pred_set).1 = 0 ∧ (calculate_metrics gt_set pred_set).2.1 = 0
  · rw [if_pos h]
    norm_num
  · rw [if_neg h]
    have hpr : 0 < (calculate_metrics gt_set pred_set).1 + (calculate_metrics gt_set pred_set).2.1 := by
      rcases lt_or_eq_of_le hp0 with hp | hp
      · linarith
      · rcases lt_or_eq_of_le hr0 with hr | hr
        · linarith
        · exact absurd ⟨hp.symm, hr.symm⟩ h
    constructor
    · exact div_nonneg (by positivity) (le_of_lt hpr)
    · rw [div_le_one hpr]
      nlinarith

end SkillsPipeline
